import Mathlib

/-!
Verification of the data-shaping pipeline of `LineGraphVisualization.tsx`.

Embedding conventions:
* JavaScript strings are modelled as `List Char` (named `Str`), so that
  splitting, padding and concatenation are ordinary list operations.
* JavaScript numbers are modelled as `ℚ` (the pipeline only adds, divides
  and compares values produced from the input records).
* A JavaScript `Map` is modelled as an association list onto which `set`
  conses the new binding; `get` reads the most recent binding
  (`List.lookup` finds the first, i.e. newest, entry).
* A thrown exception inside the data-processing callback is modelled with
  `Option`: `none` means the invocation aborted without producing output.
* `Date` objects (timestamps) are modelled as serial day numbers (`Nat`),
  and canonical `YYYY-MM-DD` strings as `Date` records with numeric
  year/month/day fields; `toSerial`/`serialToDate` convert between them.
-/

set_option allowUnsafeReducibility true
attribute [local semireducible] Rat.add Rat.mul Rat.div Rat.sub Rat.neg Rat.inv

namespace LineGraph

/-- JavaScript strings as lists of characters. -/
abbrev Str := List Char

/-- `s.split('/')` from the source, specialised to a single separator
character: splits `s` at every occurrence of `c`; always returns at least
one (possibly empty) component, like JavaScript `String.prototype.split`. -/
def splitOnChar (c : Char) : Str → List Str
  | [] => [[]]
  | x :: xs =>
    if x = c then [] :: splitOnChar c xs
    else (splitOnChar c xs).modifyHead (x :: ·)

/-- `s.padStart(2, '0')` from the source: left-pad with `'0'` to length 2. -/
def padStart2 (s : Str) : Str :=
  if s.length < 2 then List.replicate (2 - s.length) '0' ++ s else s

/-- `formatDate` (source lines 47-50): destructures `split('/')` into
`[month, day, year]` and rebuilds ``${year}-${month.padStart(2,'0')}-${day.padStart(2,'0')}``.
If the split yields fewer than two components, `day` is `undefined` and
`day.padStart` throws (modelled as `none`); a missing third component makes
`year` the string `"undefined"` via template-literal coercion. -/
def formatDate (dateString : Str) : Option Str :=
  let parts := splitOnChar '/' dateString
  if parts.length < 2 then none
  else
    some (parts.getD 2 "undefined".data
      ++ '-' :: padStart2 (parts.getD 0 []) ++ '-' :: padStart2 (parts.getD 1 []))

/-- `calculateSimpleMovingAverage` (source lines 52-66): index `i < 13`
copies `data[i]`; otherwise it averages `data.slice(i - 13, i + 1)`. -/
def calculateSimpleMovingAverage (data : List ℚ) : List ℚ :=
  (List.range data.length).map (fun i =>
    if i < 13 then data.getD i 0
    else
      let slice := (data.drop (i - 13)).take (i + 1 - (i - 13))
      slice.sum / (slice.length : ℚ))

/-- A raw record of the input document (`DataItem`, source lines 14-18). -/
structure DataItem where
  name : Str
  confirmation_date : Str
  value : ℚ
deriving DecidableEq, Repr

/-- A row of the dense matrix (`ChartDataPoint`, source lines 20-23): the
`date` field plus the per-series bindings, in JavaScript object key order. -/
structure ChartDataPoint where
  date : Str
  values : List (Str × ℚ)
deriving DecidableEq, Repr

/-- Insertion into a JavaScript `Set`, element by element: keep the first
occurrence of each value, tracking what has been seen. -/
def uniqueAux (seen : List Str) : List Str → List Str
  | [] => []
  | x :: xs => if x ∈ seen then uniqueAux seen xs else x :: uniqueAux (x :: seen) xs

/-- `[...new Set(jsonData.map(item => item.name))]` (source line 113):
distinct names in first-encounter order. -/
def uniqueUCs (jsonData : List DataItem) : List Str :=
  uniqueAux [] (jsonData.map (·.name))

/-- The composite lookup key `` `${item.name}-${formattedDate}` `` of a
record, `none` when `formatDate` throws on its raw date. -/
def recordKey (item : DataItem) : Option Str :=
  (formatDate item.confirmation_date).map (fun fd => item.name ++ '-' :: fd)

/-- Building the `dataLookup` map (source lines 122-127): iterate over the
records, normalising each date and `set`ting the binding; a throw inside
`formatDate` aborts the whole construction (`none`). `set` conses, so the
newest binding for a key shadows older ones. -/
def dataLookup (jsonData : List DataItem) : Option (List (Str × ℚ)) :=
  jsonData.foldlM (fun m item => (recordKey item).map (fun k => (k, item.value) :: m)) []

/-- `dataLookup.get(key) || 0` from the source: a missing key reads as 0. -/
def getOrZero (m : List (Str × ℚ)) (k : Str) : ℚ :=
  (m.lookup k).getD 0

/-- `ucTotals` (source lines 129-135): for every discovered series, the sum
of lookup reads over every date of the axis. -/
def ucTotals (jsonData : List DataItem) (m : List (Str × ℚ))
    (dateRange : List Str) : List (Str × ℚ) :=
  (uniqueUCs jsonData).map (fun uc =>
    (uc, dateRange.foldl (fun sum date => sum + getOrZero m (uc ++ '-' :: date)) 0))

/-- One insertion step of the stable descending sort: the new element goes
after every strictly greater total and before every equal or smaller one. -/
def insertDesc (x : Str × ℚ) : List (Str × ℚ) → List (Str × ℚ)
  | [] => [x]
  | y :: ys => if x.2 < y.2 then y :: insertDesc x ys else x :: y :: ys

/-- `ucTotals.sort((a, b) => b.total - a.total)` (source line 138):
`Array.prototype.sort` is stable (ES2019), so with this comparator it is
extensionally the stable descending insertion sort. -/
def sortDesc : List (Str × ℚ) → List (Str × ℚ)
  | [] => []
  | x :: xs => insertDesc x (sortDesc xs)

/-- `arr.slice(0, e)` from the source: a negative end counts from the end
of the array, a non-negative end is clamped to the length. -/
def jsSliceTo (l : List (Str × ℚ)) (e : Int) : List (Str × ℚ) :=
  l.take (if e < 0 then ((l.length : Int) + e).toNat else e.toNat)

/-- `topUCs` (source lines 137-140): stable-sort the totals descending,
slice the first `topN`, keep the names. -/
def topUCs (jsonData : List DataItem) (m : List (Str × ℚ))
    (dateRange : List Str) (topN : Int) : List Str :=
  (jsSliceTo (sortDesc (ucTotals jsonData m dateRange)) topN).map Prod.fst

/-- `dataPoint[uc] = v` on a JavaScript object: overwrite an existing key
in place, otherwise append the new key. -/
def objSet (vs : List (Str × ℚ)) (k : Str) (v : ℚ) : List (Str × ℚ) :=
  if vs.any (fun p => p.1 = k) then
    vs.map (fun p => if p.1 = k then (k, v) else p)
  else vs ++ [(k, v)]

/-- `point[uc]` on a JavaScript object (always present where the source
reads it; an absent key defaults to 0 in the model). -/
def objGet (vs : List (Str × ℚ)) (k : Str) : ℚ :=
  (vs.lookup k).getD 0

/-- `formattedData` (source lines 142-149): one row per axis date, in axis
order; each row binds every selected series to its lookup value or 0. -/
def formattedData (m : List (Str × ℚ)) (dateRange : List Str)
    (tops : List Str) : List ChartDataPoint :=
  dateRange.map (fun date =>
    { date := date
      values := tops.foldl (fun vs uc => objSet vs uc (getOrZero m (uc ++ '-' :: date))) [] })

/-- One iteration of the smoothing loop (source lines 151-157): read the
column of `uc`, smooth it, and write it back row by row. -/
def smoothColumn (matrix : List ChartDataPoint) (uc : Str) : List ChartDataPoint :=
  let ucData := matrix.map (fun point => objGet point.values uc)
  let movingAverage := calculateSimpleMovingAverage ucData
  matrix.zipWith (fun point v => { point with values := objSet point.values uc v }) movingAverage

/-- The whole smoothing pass: `topUCs.forEach`, mutating the shared matrix
column by column. -/
def applySmoothing (tops : List Str) (matrix : List ChartDataPoint) : List ChartDataPoint :=
  tops.foldl smoothColumn matrix

/-- The data-processing callback (source lines 113-159) from the parsed
document, the date axis and `topN` to `{ chartData, uniqueUCs }`; `none`
models an exception escaping to the `.catch` handler, in which case
`setData` is never called. -/
def processData (jsonData : List DataItem) (dateRange : List Str) (topN : Int) :
    Option (List ChartDataPoint × List Str) :=
  (dataLookup jsonData).map (fun m =>
    let tops := topUCs jsonData m dateRange topN
    (applySmoothing tops (formattedData m dateRange tops), tops))

/-! ### Calendar model for `generateDateRange` (source lines 35-45)

The source iterates a `Date` timestamp one day at a time and renders each
as `YYYY-MM-DD`. Timestamps are serial day numbers; canonical date strings
are `Date` records. -/

/-- A canonical calendar date (the components of a `YYYY-MM-DD` string). -/
structure Date where
  year : Nat
  month : Nat
  day : Nat
deriving DecidableEq, Repr

/-- Gregorian leap-year rule. -/
def isLeap (y : Nat) : Bool :=
  (y % 4 = 0 && y % 100 ≠ 0) || y % 400 = 0

/-- Month lengths of year `y`, January first. -/
def monthLengths (y : Nat) : List Nat :=
  [31, if isLeap y then 29 else 28, 31, 30, 31, 30, 31, 31, 30, 31, 30, 31]

/-- Days in month `m` (1-based) of year `y`. -/
def daysInMonth (y m : Nat) : Nat :=
  (monthLengths y).getD (m - 1) 31

/-- Length of year `y` in days. -/
def yearLen (y : Nat) : Nat :=
  if isLeap y then 366 else 365

/-- Days contained in the `n` consecutive years starting at year `a`. -/
def daysInYears (a : Nat) : Nat → Nat
  | 0 => 0
  | n + 1 => yearLen a + daysInYears (a + 1) n

/-- Days of year `y` strictly before month `m` (1-based). -/
def daysBeforeMonth (y m : Nat) : Nat :=
  ((monthLengths y).take (m - 1)).sum

/-- Serial day number of a date (day 1 is January 1 of year 0). -/
def toSerial (d : Date) : Nat :=
  daysInYears 0 d.year + daysBeforeMonth d.year d.month + d.day

/-- A date is valid when its month and day are in range. -/
def Date.Valid (d : Date) : Prop :=
  1 ≤ d.month ∧ d.month ≤ 12 ∧ 1 ≤ d.day ∧ d.day ≤ daysInMonth d.year d.month

instance (d : Date) : Decidable d.Valid := by
  unfold Date.Valid; infer_instance

/-- The calendar successor of a date (month and year rollover). -/
def nextDay (d : Date) : Date :=
  if d.day < daysInMonth d.year d.month then
    { d with day := d.day + 1 }
  else if d.month < 12 then
    { year := d.year, month := d.month + 1, day := 1 }
  else
    { year := d.year + 1, month := 1, day := 1 }

theorem yearLen_pos (y : Nat) : 0 < yearLen y := by
  unfold yearLen; split <;> omega

/-- The year-finding loop with explicit fuel; every iteration removes at
least one day, so `s` units of fuel always suffice. -/
def findYearAux : Nat → Nat → Nat → Nat × Nat
  | 0, y, s => (y, s)
  | fuel + 1, y, s =>
    if yearLen y < s then findYearAux fuel (y + 1) (s - yearLen y) else (y, s)

/-- Recover the year and the 1-based day-of-year from a serial number. -/
def findYear (y s : Nat) : Nat × Nat :=
  findYearAux s y s

/-- Recover the 1-based month and day from a day-of-year, walking the month
lengths. -/
def findMonth (ls : List Nat) (m doy : Nat) : Nat × Nat :=
  match ls with
  | [] => (m, doy)
  | l :: rest => if l < doy then findMonth rest (m + 1) (doy - l) else (m, doy)

/-- Render a serial day number back into a calendar date (the model of
`toISOString().split('T')[0]`). -/
def serialToDate (s : Nat) : Date :=
  let yp := findYear 0 s
  let mp := findMonth (monthLengths yp.1) 1 yp.2
  { year := yp.1, month := mp.1, day := mp.2 }

/-- The `while (currentDate <= end)` loop of `generateDateRange` with
explicit fuel; `endS + 1 - cur` iterations always suffice. -/
def dateRangeAux : Nat → Nat → Nat → List Nat
  | 0, _, _ => []
  | fuel + 1, cur, endS =>
    if cur ≤ endS then cur :: dateRangeAux fuel (cur + 1) endS else []

/-- The timestamp loop of `generateDateRange`: collect every serial from
`cur` up to `endS` inclusive. -/
def dateRangeGo (cur endS : Nat) : List Nat :=
  dateRangeAux (endS + 1 - cur) cur endS

/-- `generateDateRange` (source lines 35-45): parse both bounds to
timestamps, walk one day at a time while `currentDate <= end`, and render
each timestamp as a canonical date. -/
def generateDateRange (startDate endDate : Date) : List Date :=
  (dateRangeGo (toSerial startDate) (toSerial endDate)).map serialToDate

/-! ### Concrete sample inputs used by the witnesses and counterexamples -/

/-- The sequence 0, 1, …, 20 as rationals. -/
def sampleSMAInput : List ℚ := (List.range 21).map (fun n => (n : ℚ))

/-- With `recTieB` and `recTieC`: totals A:30, B:30, C:10, discovered in the
order A, B, C. -/
def recTieA : DataItem := ⟨"A".data, "7/1/2024".data, 30⟩

/-- See `recTieA`. -/
def recTieB : DataItem := ⟨"B".data, "7/1/2024".data, 30⟩

/-- See `recTieA`. -/
def recTieC : DataItem := ⟨"C".data, "7/1/2024".data, 10⟩

/-- A one-day axis matching the sample records. -/
def sampleAxis : List Str := ["2024-07-01".data]

/-- Collides with `recDup2` on the key `X-2024-07-01`, with another value. -/
def recDup1 : DataItem := ⟨"X".data, "7/1/2024".data, 5⟩

/-- See `recDup1`. -/
def recDup2 : DataItem := ⟨"X".data, "7/1/2024".data, 9⟩

/-! ### Theorems: the moving average -/

theorem calculateSimpleMovingAverage_length (data : List ℚ) :
    (calculateSimpleMovingAverage data).length = data.length := by
  simp [calculateSimpleMovingAverage]

theorem calculateSimpleMovingAverage_getD (data : List ℚ) (i : Nat) (h : i < data.length) :
    (calculateSimpleMovingAverage data).getD i 0 =
      if i < 13 then data.getD i 0
      else ((data.drop (i - 13)).take (i + 1 - (i - 13))).sum /
        (((data.drop (i - 13)).take (i + 1 - (i - 13))).length : ℚ) := by
  have h' : i < (calculateSimpleMovingAverage data).length := by
    rw [calculateSimpleMovingAverage_length]; exact h
  rw [List.getD_eq_getElem?_getD, List.getElem?_eq_getElem h']
  simp [calculateSimpleMovingAverage]

theorem getD_take_succ (l : List ℚ) (i : Nat) :
    (l.take (i + 1)).getD i 0 = l.getD i 0 := by
  rw [List.getD_eq_getElem?_getD, List.getD_eq_getElem?_getD, List.getElem?_take]
  simp

/-- C1: for every input sequence, `calculateSimpleMovingAverage` returns a
sequence of identical length; below index 13 the raw value is copied
unchanged; from index 13 on the output is the arithmetic mean of the window
`values[i-13 .. i]` of exactly 14 points; and the output at index `i` never
reads past index `i` (it is determined by the first `i + 1` input values). -/
theorem claim_C1 (data : List ℚ) :
    (calculateSimpleMovingAverage data).length = data.length
    ∧ (∀ i, i < data.length → i < 13 →
        (calculateSimpleMovingAverage data).getD i 0 = data.getD i 0)
    ∧ (∀ i, i < data.length → 13 ≤ i →
        ((data.drop (i - 13)).take 14).length = 14
        ∧ (calculateSimpleMovingAverage data).getD i 0 = ((data.drop (i - 13)).take 14).sum / 14)
    ∧ (∀ (other : List ℚ) (i : Nat), i < data.length → i < other.length →
        data.take (i + 1) = other.take (i + 1) →
        (calculateSimpleMovingAverage data).getD i 0
          = (calculateSimpleMovingAverage other).getD i 0) := by
  refine ⟨calculateSimpleMovingAverage_length data, ?_, ?_, ?_⟩
  · intro i hi h13
    rw [calculateSimpleMovingAverage_getD data i hi, if_pos h13]
  · intro i hi h13
    have h14 : i + 1 - (i - 13) = 14 := by omega
    have hlen : ((data.drop (i - 13)).take 14).length = 14 := by
      rw [List.length_take, List.length_drop]; omega
    refine ⟨hlen, ?_⟩
    rw [calculateSimpleMovingAverage_getD data i hi, if_neg (by omega), h14, hlen]
    norm_num
  · intro other i hi hi' hpre
    rw [calculateSimpleMovingAverage_getD data i hi, calculateSimpleMovingAverage_getD other i hi']
    by_cases h13 : i < 13
    · rw [if_pos h13, if_pos h13,
        ← getD_take_succ data i, ← getD_take_succ other i, hpre]
    · have hwin : (data.drop (i - 13)).take (i + 1 - (i - 13))
          = (other.drop (i - 13)).take (i + 1 - (i - 13)) := by
        rw [List.take_drop, List.take_drop, show i - 13 + (i + 1 - (i - 13)) = i + 1 by omega,
          hpre]
      rw [if_neg h13, if_neg h13, hwin]

theorem claim_C1_witness :
    (13 : Nat) < sampleSMAInput.length ∧ (13 : Nat) ≤ 13
    ∧ (calculateSimpleMovingAverage sampleSMAInput).getD 13 0
        = ((sampleSMAInput.drop 0).take 14).sum / 14 :=
  ⟨by decide, le_refl 13, ((claim_C1 sampleSMAInput).2.2.1 13 (by decide) (by decide)).2⟩

/-! ### Theorems: date-string normalisation -/

theorem splitOnChar_ne_nil (c : Char) (s : Str) : splitOnChar c s ≠ [] := by
  induction s with
  | nil => simp [splitOnChar]
  | cons x xs ih =>
    simp only [splitOnChar]
    split
    · simp
    · cases hs : splitOnChar c xs with
      | nil => exact absurd hs ih
      | cons h t => simp [hs]

theorem splitOnChar_append (c : Char) (a rest : Str) (h : c ∉ a) :
    splitOnChar c (a ++ c :: rest) = a :: splitOnChar c rest := by
  induction a with
  | nil => simp [splitOnChar]
  | cons x xs ih =>
    have hx : ¬ x = c := fun e => h (e ▸ List.mem_cons_self x xs)
    have hxs : c ∉ xs := fun m => h (List.mem_cons_of_mem x m)
    simp only [List.cons_append, splitOnChar, List.append_eq, if_neg hx, ih hxs,
      List.modifyHead_cons]

theorem splitOnChar_of_not_mem (c : Char) (s : Str) (h : c ∉ s) : splitOnChar c s = [s] := by
  induction s with
  | nil => rfl
  | cons x xs ih =>
    have hx : ¬ x = c := fun e => h (e ▸ List.mem_cons_self x xs)
    have hxs : c ∉ xs := fun m => h (List.mem_cons_of_mem x m)
    simp only [splitOnChar, if_neg hx, ih hxs, List.modifyHead_cons]

theorem splitOnChar_length (c : Char) (s : Str) :
    (splitOnChar c s).length = s.count c + 1 := by
  induction s with
  | nil => simp [splitOnChar]
  | cons x xs ih =>
    simp only [splitOnChar, List.count_cons]
    split
    · next hx => simp [ih, hx]
    · next hx =>
      rw [List.length_modifyHead, ih]
      have : ¬ (x == c) = true := by simpa using hx
      simp [this]

/-- C9: for a well-formed raw date string built of three numeric
`/`-separated components, `formatDate` splits on `/` and produces
`year-month-day` with month and day zero-padded to two digits; in
particular `7/4/2024 ↦ 2024-07-04` and `12/31/2024 ↦ 2024-12-31`. -/
theorem claim_C9 :
    (∀ month day year : Str,
      (∀ ch ∈ month, ch.isDigit) → (∀ ch ∈ day, ch.isDigit) → (∀ ch ∈ year, ch.isDigit) →
      formatDate (month ++ '/' :: (day ++ '/' :: year))
        = some (year ++ '-' :: padStart2 month ++ '-' :: padStart2 day))
    ∧ formatDate "7/4/2024".data = some "2024-07-04".data
    ∧ formatDate "12/31/2024".data = some "2024-12-31".data := by
  refine ⟨?_, by decide, by decide⟩
  intro month day year hm hd hy
  have digit_ne : ∀ (s : Str), (∀ ch ∈ s, ch.isDigit) → '/' ∉ s := by
    intro s hs m
    have := hs '/' m
    simp [Char.isDigit] at this
  have hsplit : splitOnChar '/' (month ++ '/' :: (day ++ '/' :: year))
      = [month, day, year] := by
    rw [splitOnChar_append '/' month _ (digit_ne month hm),
      splitOnChar_append '/' day _ (digit_ne day hd),
      splitOnChar_of_not_mem '/' year (digit_ne year hy)]
  simp [formatDate, hsplit]

theorem claim_C9_witness :
    (∀ ch ∈ "12".data, ch.isDigit)
    ∧ formatDate ("12".data ++ '/' :: ("31".data ++ '/' :: "2024".data))
        = some ("2024".data ++ '-' :: padStart2 "12".data ++ '-' :: padStart2 "31".data) :=
  ⟨by decide, claim_C9.1 "12".data "31".data "2024".data (by decide) (by decide) (by decide)⟩

theorem formatDate_eq_none_iff (s : Str) : formatDate s = none ↔ '/' ∉ s := by
  have hiff : (splitOnChar '/' s).length < 2 ↔ '/' ∉ s := by
    rw [splitOnChar_length]
    constructor
    · intro h
      exact List.count_eq_zero.mp (by omega)
    · intro h
      have := List.count_eq_zero.mpr h
      omega
  by_cases hc : (splitOnChar '/' s).length < 2
  · simp only [formatDate, if_pos hc]
    simpa using hiff.mp hc
  · have := (not_congr hiff).mp hc
    simp only [formatDate, if_neg hc]
    simp [this]

/-! ### Theorems: the lookup map -/

/-- The key/value pair a record contributes to the lookup, if its date
normalises. -/
theorem recordKey_isSome (r : DataItem) :
    (recordKey r).isSome ↔ '/' ∈ r.confirmation_date := by
  rw [recordKey, Option.isSome_map']
  rw [← Option.ne_none_iff_isSome, ne_eq, formatDate_eq_none_iff]
  simp

theorem dataLookup_foldlM (records : List DataItem) (init : List (Str × ℚ)) :
    records.foldlM (fun m item => (recordKey item).map (fun k => (k, item.value) :: m)) init =
      if ∀ r ∈ records, (recordKey r).isSome then
        some ((records.filterMap
          (fun r => (recordKey r).map (fun k => (k, r.value)))).reverse ++ init)
      else none := by
  induction records generalizing init with
  | nil => simp
  | cons r rs ih =>
    rw [List.foldlM_cons]
    cases hk : recordKey r with
    | none =>
      have hnot : ¬ ∀ x ∈ r :: rs, (recordKey x).isSome := by
        intro hall
        have := hall r (List.mem_cons_self r rs)
        rw [hk] at this
        simp at this
      simp [hk, hnot]
    | some k =>
      simp only [hk, Option.map_some', Option.bind_eq_bind, Option.some_bind]
      rw [ih]
      by_cases hall : ∀ x ∈ rs, (recordKey x).isSome
      · rw [if_pos hall, if_pos (by
          intro x hx
          rcases List.mem_cons.mp hx with rfl | hx
          · rw [hk]; rfl
          · exact hall x hx)]
        simp [List.filterMap_cons, hk, List.reverse_cons, List.append_assoc]
      · rw [if_neg hall, if_neg (by
          intro hall'
          exact hall fun x hx => hall' x (List.mem_cons_of_mem r hx))]

theorem lookup_append_of_none (l1 l2 : List (Str × ℚ)) (k : Str)
    (h : l1.lookup k = none) : (l1 ++ l2).lookup k = l2.lookup k := by
  induction l1 with
  | nil => simp
  | cons p ps ih =>
    obtain ⟨a, b⟩ := p
    by_cases hka : k = a
    · subst hka
      simp [List.lookup_cons] at h
    · have hb : (k == a) = false := beq_eq_false_iff_ne.mpr hka
      simp only [List.cons_append, List.lookup_cons, hb] at h ⊢
      exact ih h

theorem lookup_eq_none_of_forall_ne (l : List (Str × ℚ)) (k : Str)
    (h : ∀ p ∈ l, p.1 ≠ k) : l.lookup k = none := by
  induction l with
  | nil => rfl
  | cons p ps ih =>
    obtain ⟨a, b⟩ := p
    have ha : a ≠ k := h (a, b) (List.mem_cons_self _ _)
    have : (k == a) = false := by simp [Ne.symm ha]
    simp only [List.lookup_cons, this]
    exact ih fun q hq => h q (List.mem_cons_of_mem _ hq)

/-- C4: when several records share the same `(seriesName, normalized date)`
composite key, the lookup holds exactly the value of the record that comes
last in input order — later writes overwrite earlier ones; colliding values
are never summed. -/
theorem claim_C4 (pre mid post : List DataItem) (r1 r2 : DataItem) (k : Str)
    (m : List (Str × ℚ))
    (h1 : recordKey r1 = some k) (h2 : recordKey r2 = some k)
    (hpost : ∀ r ∈ post, recordKey r ≠ some k)
    (hm : dataLookup (pre ++ r1 :: (mid ++ r2 :: post)) = some m) :
    m.lookup k = some r2.value ∧ getOrZero m k = r2.value := by
  rw [dataLookup, dataLookup_foldlM] at hm
  by_cases hall : ∀ r ∈ pre ++ r1 :: (mid ++ r2 :: post), (recordKey r).isSome
  case neg => rw [if_neg hall] at hm; exact absurd hm (by simp)
  rw [if_pos hall, Option.some_inj] at hm
  subst hm
  have hlk : (List.filterMap
      (fun r => (recordKey r).map (fun k => (k, r.value))) post).reverse.lookup k
      = none := by
    apply lookup_eq_none_of_forall_ne
    intro p hp
    rw [List.mem_reverse, List.mem_filterMap] at hp
    obtain ⟨r, hr, hkv⟩ := hp
    cases hkr : recordKey r with
    | none => rw [hkr] at hkv; simp at hkv
    | some k' =>
      rw [hkr] at hkv
      simp only [Option.map_some', Option.some_inj] at hkv
      subst hkv
      intro hpk
      apply hpost r hr
      rw [hkr]
      exact congrArg some hpk
  have hsplit : (List.filterMap
        (fun r => (recordKey r).map (fun k => (k, r.value)))
        (pre ++ r1 :: (mid ++ r2 :: post))).reverse ++ ([] : List (Str × ℚ))
      = (List.filterMap (fun r => (recordKey r).map (fun k => (k, r.value))) post).reverse
        ++ (k, r2.value)
        :: ((List.filterMap (fun r => (recordKey r).map (fun k => (k, r.value))) mid).reverse
          ++ (k, r1.value)
          :: (List.filterMap (fun r => (recordKey r).map (fun k => (k, r.value))) pre).reverse) := by
    simp [List.filterMap_append, List.filterMap_cons, h1, h2, List.reverse_append,
      List.reverse_cons, List.append_assoc]
  rw [hsplit, lookup_append_of_none _ _ _ hlk, List.lookup_cons]
  simp [getOrZero]
  rw [lookup_append_of_none _ _ _ hlk, List.lookup_cons]
  simp

theorem claim_C4_witness :
    List.lookup "X-2024-07-01".data
        [("X-2024-07-01".data, (9 : ℚ)), ("X-2024-07-01".data, (5 : ℚ))] = some recDup2.value
    ∧ getOrZero [("X-2024-07-01".data, (9 : ℚ)), ("X-2024-07-01".data, (5 : ℚ))]
        "X-2024-07-01".data = recDup2.value :=
  claim_C4 [] [] [] recDup1 recDup2 "X-2024-07-01".data
    [("X-2024-07-01".data, (9 : ℚ)), ("X-2024-07-01".data, (5 : ℚ))]
    (by decide) (by decide) (by simp) (by decide)

/-- C8 counterexample: the code does not raise any error for a raw date
with a component count other than three (`"7/4"`), nor for non-numeric
components (`"a/b/c"`): both normalise to garbage strings and the
aggregation completes, producing output. -/
theorem claim_C8_counterexample :
    ((splitOnChar '/' "7/4".data).length ≠ 3
      ∧ processData [⟨"X".data, "7/4".data, 5⟩] sampleAxis 1 ≠ none)
    ∧ ((splitOnChar '/' "a/b/c".data).length = 3
      ∧ ¬ (∀ ch ∈ "a".data, ch.isDigit)
      ∧ processData [⟨"X".data, "a/b/c".data, 5⟩] sampleAxis 1 ≠ none) := by decide

/-- C8 amended: `formatDate` throws (aborting the whole aggregation with no
output, surfaced to the error handler) exactly when the raw date string
contains no `/` at all — the destructured `day` is then `undefined` and
`day.padStart` raises. Raw dates with two or more `/`-separated components,
numeric or not, never fail: they are rebuilt verbatim (with a literal
`undefined` year when the third component is missing) and aggregation
proceeds. -/
theorem claim_C8_amended :
    (∀ s : Str, formatDate s = none ↔ '/' ∉ s)
    ∧ (∀ (records : List DataItem) (axis : List Str) (topN : Int),
        processData records axis topN = none
          ↔ ∃ r ∈ records, '/' ∉ r.confirmation_date) := by
  refine ⟨formatDate_eq_none_iff, ?_⟩
  intro records axis topN
  have hmap : processData records axis topN = none ↔ dataLookup records = none := by
    unfold processData
    exact Option.map_eq_none'
  rw [hmap, dataLookup, dataLookup_foldlM]
  by_cases hall : ∀ r ∈ records, (recordKey r).isSome
  · rw [if_pos hall]
    have hnone : ¬ ∃ r ∈ records, '/' ∉ r.confirmation_date := by
      rintro ⟨r, hr, hslash⟩
      exact hslash ((recordKey_isSome r).mp (hall r hr))
    simp [hnone]
  · rw [if_neg hall]
    push_neg at hall
    obtain ⟨r, hr, hk⟩ := hall
    have : '/' ∉ r.confirmation_date := by
      rw [← recordKey_isSome]
      simpa using hk
    simp only [true_iff]
    exact ⟨r, hr, this⟩

/-! ### Theorems: series discovery and ranking -/

theorem mem_uniqueAux (l : List Str) (x : Str) :
    ∀ seen, x ∈ uniqueAux seen l ↔ x ∈ l ∧ x ∉ seen := by
  induction l with
  | nil => intro seen; simp [uniqueAux]
  | cons y ys ih =>
    intro seen
    by_cases hy : y ∈ seen
    · rw [uniqueAux, if_pos hy, ih]
      constructor
      · rintro ⟨hxy, hxs⟩
        exact ⟨List.mem_cons_of_mem y hxy, hxs⟩
      · rintro ⟨hxy, hxs⟩
        rcases List.mem_cons.mp hxy with rfl | hmem
        · exact absurd hy hxs
        · exact ⟨hmem, hxs⟩
    · rw [uniqueAux, if_neg hy]
      constructor
      · intro hx
        rcases List.mem_cons.mp hx with rfl | hmem
        · exact ⟨List.mem_cons_self _ _, hy⟩
        · obtain ⟨h1, h2⟩ := (ih (y :: seen)).mp hmem
          exact ⟨List.mem_cons_of_mem y h1, fun hc => h2 (List.mem_cons_of_mem y hc)⟩
      · rintro ⟨hxy, hxs⟩
        rcases List.mem_cons.mp hxy with rfl | hmem
        · exact List.mem_cons_self _ _
        · by_cases hxy2 : x = y
          · subst hxy2; exact List.mem_cons_self _ _
          · refine List.mem_cons_of_mem y ((ih (y :: seen)).mpr ⟨hmem, ?_⟩)
            intro hc
            rcases List.mem_cons.mp hc with h | h
            · exact hxy2 h
            · exact hxs h

theorem uniqueAux_nodup (l : List Str) : ∀ seen, (uniqueAux seen l).Nodup := by
  induction l with
  | nil => intro seen; simp [uniqueAux]
  | cons y ys ih =>
    intro seen
    by_cases hy : y ∈ seen
    · rw [uniqueAux, if_pos hy]; exact ih seen
    · rw [uniqueAux, if_neg hy]
      refine List.nodup_cons.mpr ⟨?_, ih (y :: seen)⟩
      intro hc
      exact ((mem_uniqueAux ys y (y :: seen)).mp hc).2 (List.mem_cons_self _ _)

theorem uniqueUCs_nodup (records : List DataItem) : (uniqueUCs records).Nodup :=
  uniqueAux_nodup _ []

theorem mem_uniqueUCs (records : List DataItem) (x : Str) :
    x ∈ uniqueUCs records ↔ x ∈ records.map (·.name) := by
  rw [uniqueUCs, mem_uniqueAux]
  simp

theorem uniqueUCs_length (records : List DataItem) :
    (uniqueUCs records).length = ((records.map (·.name)).dedup).length := by
  apply List.Perm.length_eq
  apply List.perm_of_nodup_nodup_toFinset_eq (uniqueUCs_nodup records)
    (List.nodup_dedup _)
  ext x
  simp [mem_uniqueUCs]

theorem insertDesc_perm (x : Str × ℚ) (l : List (Str × ℚ)) :
    (insertDesc x l).Perm (x :: l) := by
  induction l with
  | nil => exact List.Perm.refl _
  | cons y ys ih =>
    rw [insertDesc]
    split
    · exact (ih.cons y).trans (List.Perm.swap x y ys)
    · exact List.Perm.refl _

theorem sortDesc_perm (l : List (Str × ℚ)) : (sortDesc l).Perm l := by
  induction l with
  | nil => exact List.Perm.refl _
  | cons x xs ih => exact (insertDesc_perm x (sortDesc xs)).trans (ih.cons x)

theorem insertDesc_sorted (x : Str × ℚ) (l : List (Str × ℚ))
    (h : l.Pairwise (fun a b => b.2 ≤ a.2)) :
    (insertDesc x l).Pairwise (fun a b => b.2 ≤ a.2) := by
  induction l with
  | nil => simp [insertDesc]
  | cons y ys ih =>
    rw [List.pairwise_cons] at h
    obtain ⟨hy, hys⟩ := h
    rw [insertDesc]
    split
    · next hlt =>
      refine List.pairwise_cons.mpr ⟨?_, ih hys⟩
      intro z hz
      rcases List.mem_cons.mp ((insertDesc_perm x ys).mem_iff.mp hz) with rfl | hmem
      · exact le_of_lt hlt
      · exact hy z hmem
    · next hge =>
      push_neg at hge
      refine List.pairwise_cons.mpr ⟨?_, List.pairwise_cons.mpr ⟨hy, hys⟩⟩
      intro z hz
      rcases List.mem_cons.mp hz with rfl | hmem
      · exact hge
      · exact le_trans (hy z hmem) hge

theorem sortDesc_sorted (l : List (Str × ℚ)) :
    (sortDesc l).Pairwise (fun a b => b.2 ≤ a.2) := by
  induction l with
  | nil => simp [sortDesc]
  | cons x xs ih => exact insertDesc_sorted x (sortDesc xs) ih

theorem filter_insertDesc (x : Str × ℚ) (l : List (Str × ℚ)) (t : ℚ) :
    (insertDesc x l).filter (fun p => p.2 = t)
      = if x.2 = t then x :: l.filter (fun p => p.2 = t)
        else l.filter (fun p => p.2 = t) := by
  induction l with
  | nil => simp [insertDesc, List.filter_cons]
  | cons y ys ih =>
    rw [insertDesc]
    split
    · next hlt =>
      by_cases hxt : x.2 = t
      · have hyt : ¬ (y.2 = t) := by rw [← hxt]; exact (ne_of_lt hlt).symm
        simp only [List.filter_cons, hxt, hyt, ih]
        simp [hxt, hyt]
      · simp only [List.filter_cons, ih]
        simp [hxt]
    · next hge =>
      simp [List.filter_cons]

theorem filter_sortDesc (l : List (Str × ℚ)) (t : ℚ) :
    (sortDesc l).filter (fun p => p.2 = t) = l.filter (fun p => p.2 = t) := by
  induction l with
  | nil => rfl
  | cons x xs ih =>
    rw [sortDesc, filter_insertDesc, ih, List.filter_cons]
    split <;> simp_all

theorem foldl_add_eq_sum (g : Str → ℚ) (axis : List Str) :
    ∀ a : ℚ, axis.foldl (fun sum date => sum + g date) a = a + (axis.map g).sum := by
  induction axis with
  | nil => intro a; simp
  | cons d ds ih =>
    intro a
    rw [List.foldl_cons, ih, List.map_cons, List.sum_cons, add_assoc]

/-- C3: the ranking sums lookup reads (0 when absent) over every axis date
per discovered series, sorts by total in descending order, breaks ties
stably in discovery order — per total, the sorted list keeps exactly the
discovery-ordered entries — and takes the first `topN` names; on totals
A:30, B:30, C:10 with discovery order A, B, C and topN = 2 it yields
[A, B]. -/
theorem claim_C3 (records : List DataItem) (m : List (Str × ℚ)) (axis : List Str)
    (topN : Int) (htop : 0 < topN) :
    topUCs records m axis topN
        = ((sortDesc (ucTotals records m axis)).map Prod.fst).take topN.toNat
    ∧ ucTotals records m axis
        = (uniqueUCs records).map (fun uc =>
            (uc, (axis.map (fun date => getOrZero m (uc ++ '-' :: date))).sum))
    ∧ (sortDesc (ucTotals records m axis)).Perm (ucTotals records m axis)
    ∧ (sortDesc (ucTotals records m axis)).Pairwise (fun a b => b.2 ≤ a.2)
    ∧ (∀ t : ℚ, (sortDesc (ucTotals records m axis)).filter (fun p => p.2 = t)
        = (ucTotals records m axis).filter (fun p => p.2 = t))
    ∧ (dataLookup [recTieA, recTieB, recTieC]).map
        (fun mc => topUCs [recTieA, recTieB, recTieC] mc sampleAxis 2)
        = some ["A".data, "B".data] := by
  refine ⟨?_, ?_, sortDesc_perm _, sortDesc_sorted _, filter_sortDesc _, by decide⟩
  · rw [topUCs, jsSliceTo, if_neg (by omega), List.map_take]
  · rw [ucTotals]
    apply List.map_congr_left
    intro uc _
    rw [foldl_add_eq_sum, zero_add]

theorem claim_C3_witness :
    (0 : Int) < 2
    ∧ (dataLookup [recTieA, recTieB, recTieC]).map
        (fun mc => topUCs [recTieA, recTieB, recTieC] mc sampleAxis 2)
        = some ["A".data, "B".data] :=
  ⟨by decide, (claim_C3 [recTieA, recTieB, recTieC] [] sampleAxis 2 (by decide)).2.2.2.2.2⟩

/-! ### Theorems: densification -/

theorem lookup_append_of_some (l1 l2 : List (Str × ℚ)) (k : Str) (v : ℚ)
    (h : l1.lookup k = some v) : (l1 ++ l2).lookup k = some v := by
  induction l1 with
  | nil => simp at h
  | cons p ps ih =>
    obtain ⟨a, b⟩ := p
    by_cases hka : k = a
    · subst hka
      simp [List.lookup_cons] at h ⊢
      exact h
    · have hb : (k == a) = false := beq_eq_false_iff_ne.mpr hka
      simp only [List.cons_append, List.lookup_cons, hb] at h ⊢
      exact ih h

theorem lookup_map_replace_self (k : Str) (v : ℚ) :
    ∀ vs : List (Str × ℚ), (vs.any (fun p => p.1 = k)) = true →
      List.lookup k (vs.map (fun p => if p.1 = k then (k, v) else p)) = some v := by
  intro vs
  induction vs with
  | nil => intro h; simp at h
  | cons p ps ih =>
    obtain ⟨a, b⟩ := p
    intro h
    by_cases hpk : a = k
    · subst hpk
      simp [List.lookup_cons]
    · have hany : (ps.any (fun p => p.1 = k)) = true := by
        rcases List.any_eq_true.mp h with ⟨q, hq, hqk⟩
        rcases List.mem_cons.mp hq with rfl | hmem
        · exact absurd (by simpa using hqk) hpk
        · exact List.any_eq_true.mpr ⟨q, hmem, hqk⟩
      have hb : (k == a) = false := beq_eq_false_iff_ne.mpr (Ne.symm hpk)
      have hif : (if ((a, b) : Str × ℚ).1 = k then (k, v) else (a, b)) = (a, b) := by
        simp [hpk]
      simp only [List.map_cons, hif, List.lookup_cons, hb]
      exact ih hany

theorem lookup_map_replace_ne (k k' : Str) (v : ℚ) (hne : k' ≠ k) :
    ∀ vs : List (Str × ℚ),
      List.lookup k' (vs.map (fun p => if p.1 = k then (k, v) else p))
        = List.lookup k' vs := by
  intro vs
  induction vs with
  | nil => rfl
  | cons p ps ih =>
    obtain ⟨a, b⟩ := p
    by_cases hpk : a = k
    · subst hpk
      have h1 : (k' == a) = false := beq_eq_false_iff_ne.mpr hne
      simp only [List.map_cons, List.lookup_cons, h1, eq_self_iff_true, if_true]
      exact ih
    · have hif : (if ((a, b) : Str × ℚ).1 = k then (k, v) else (a, b)) = (a, b) := by
        simp [hpk]
      by_cases hkp : k' = a
      · have h1 : (k' == a) = true := beq_iff_eq.mpr hkp
        simp only [List.map_cons, hif, List.lookup_cons, h1]
      · have h1 : (k' == a) = false := beq_eq_false_iff_ne.mpr hkp
        simp only [List.map_cons, hif, List.lookup_cons, h1]
        exact ih

theorem objGet_objSet_self (vs : List (Str × ℚ)) (k : Str) (v : ℚ) :
    objGet (objSet vs k v) k = v := by
  rw [objSet]
  split
  · next hany =>
    rw [objGet, lookup_map_replace_self k v vs hany]
    rfl
  · next hany =>
    have hnone : vs.lookup k = none := by
      apply lookup_eq_none_of_forall_ne
      intro p hp hpk
      exact hany (List.any_eq_true.mpr ⟨p, hp, by simpa using hpk⟩)
    rw [objGet, lookup_append_of_none vs _ k hnone]
    simp [List.lookup_cons]

theorem objGet_objSet_ne (vs : List (Str × ℚ)) (k k' : Str) (v : ℚ) (hne : k' ≠ k) :
    objGet (objSet vs k v) k' = objGet vs k' := by
  rw [objSet]
  split
  · next hany =>
    rw [objGet, objGet, lookup_map_replace_ne k k' v hne vs]
  · next hany =>
    rw [objGet, objGet]
    cases hl : vs.lookup k' with
    | some w => rw [lookup_append_of_some vs _ k' w hl]
    | none =>
      rw [lookup_append_of_none vs _ k' hl]
      have hb : (k' == k) = false := beq_eq_false_iff_ne.mpr hne
      simp [List.lookup_cons, hb]

theorem objSet_keys_of_mem (vs : List (Str × ℚ)) (k : Str) (v : ℚ)
    (h : (vs.any (fun p => p.1 = k)) = true) :
    (objSet vs k v).map Prod.fst = vs.map Prod.fst := by
  rw [objSet, if_pos h, List.map_map]
  apply List.map_congr_left
  intro p _
  by_cases hpk : p.1 = k <;> simp [hpk]

theorem objSet_keys_of_not_mem (vs : List (Str × ℚ)) (k : Str) (v : ℚ)
    (h : ¬ (vs.any (fun p => p.1 = k)) = true) :
    (objSet vs k v).map Prod.fst = vs.map Prod.fst ++ [k] := by
  rw [objSet, if_neg h]
  simp

theorem foldl_objSet_eq (f : Str → ℚ) (tops : List Str) :
    ∀ vs : List (Str × ℚ), tops.Nodup → (∀ uc ∈ tops, uc ∉ vs.map Prod.fst) →
      tops.foldl (fun vs uc => objSet vs uc (f uc)) vs
        = vs ++ tops.map (fun uc => (uc, f uc)) := by
  induction tops with
  | nil => intro vs _ _; simp
  | cons u us ih =>
    intro vs hnd hdisj
    have hu : ¬ (vs.any (fun p => p.1 = u)) = true := by
      intro hany
      rcases List.any_eq_true.mp hany with ⟨p, hp, hpu⟩
      exact hdisj u (List.mem_cons_self _ _)
        (List.mem_map.mpr ⟨p, hp, by simpa using hpu⟩)
    rw [List.foldl_cons, objSet, if_neg hu,
      ih (vs ++ [(u, f u)]) (List.nodup_cons.mp hnd).2 ?_]
    · simp
    · intro uc hmem hc
      rw [List.map_append] at hc
      rcases List.mem_append.mp hc with hc | hc
      · exact hdisj uc (List.mem_cons_of_mem u hmem) hc
      · have : uc = u := by simpa using hc
        exact (List.nodup_cons.mp hnd).1 (this ▸ hmem)

theorem lookup_map_pairs (f : Str → ℚ) (tops : List Str) (uc : Str) (h : uc ∈ tops) :
    List.lookup uc (tops.map (fun u => (u, f u))) = some (f uc) := by
  induction tops with
  | nil => simp at h
  | cons u us ih =>
    by_cases huc : uc = u
    · subst huc
      simp [List.lookup_cons]
    · have hb : (uc == u) = false := beq_eq_false_iff_ne.mpr huc
      simp only [List.map_cons, List.lookup_cons, hb]
      exact ih (by
        rcases List.mem_cons.mp h with h | h
        · exact absurd h huc
        · exact h)

theorem map_fst_pairs (f : Str → ℚ) (tops : List Str) :
    (tops.map (fun uc => (uc, f uc))).map Prod.fst = tops := by
  induction tops with
  | nil => rfl
  | cons u us ih =>
    simp only [List.map_cons]
    rw [ih]

theorem formattedData_map_date (m : List (Str × ℚ)) (axis tops : List Str) :
    (formattedData m axis tops).map (·.date) = axis := by
  induction axis with
  | nil => rfl
  | cons d ds ih =>
    rw [formattedData, List.map_cons, List.map_cons]
    rw [formattedData] at ih
    exact congrArg (List.cons d) ih

theorem formattedData_row_values (m : List (Str × ℚ)) (tops : List Str) (date : Str)
    (hnd : tops.Nodup) :
    tops.foldl (fun vs uc => objSet vs uc (getOrZero m (uc ++ '-' :: date))) []
      = tops.map (fun uc => (uc, getOrZero m (uc ++ '-' :: date))) := by
  rw [foldl_objSet_eq _ tops [] hnd (by simp)]
  simp

/-- C5: the dense matrix has one row per axis date, in axis order, and
every row carries an explicit numeric value for every selected series key:
a missing `(date, series)` pair reads as the value 0, never as an omitted
key. -/
theorem claim_C5 (m : List (Str × ℚ)) (axis : List Str) (tops : List Str)
    (hnd : tops.Nodup) :
    (formattedData m axis tops).map (·.date) = axis
    ∧ (formattedData m axis tops).length = axis.length
    ∧ ∀ row ∈ formattedData m axis tops,
        row.values.map Prod.fst = tops
        ∧ (∀ uc ∈ tops, objGet row.values uc = getOrZero m (uc ++ '-' :: row.date))
        ∧ (∀ uc ∈ tops, m.lookup (uc ++ '-' :: row.date) = none →
            objGet row.values uc = 0) := by
  refine ⟨formattedData_map_date m axis tops, by simp [formattedData], ?_⟩
  intro row hrow
  rw [formattedData, List.mem_map] at hrow
  obtain ⟨date, _, rfl⟩ := hrow
  simp only
  rw [formattedData_row_values m tops date hnd]
  refine ⟨map_fst_pairs _ tops, ?_, ?_⟩
  · intro uc hmem
    rw [objGet, lookup_map_pairs _ tops uc hmem]
    rfl
  · intro uc hmem hnone
    rw [objGet, lookup_map_pairs _ tops uc hmem]
    simp [getOrZero, hnone]

theorem claim_C5_witness :
    (["A".data] : List Str).Nodup
    ∧ (formattedData [] sampleAxis ["A".data]).map (·.date) = sampleAxis :=
  ⟨by decide, (claim_C5 [] sampleAxis ["A".data] (by decide)).1⟩

/-! ### Theorems: smoothing -/

theorem zipWith_objSet_column_ne (u uc : Str) (hne : uc ≠ u) :
    ∀ (matrix : List ChartDataPoint) (ma : List ℚ), ma.length = matrix.length →
      (List.zipWith (fun point v =>
          { point with values := objSet point.values u v }) matrix ma).map
        (fun p => objGet p.values uc) = matrix.map (fun p => objGet p.values uc) := by
  intro matrix
  induction matrix with
  | nil => intro ma _; rfl
  | cons p ps ih =>
    intro ma h
    cases ma with
    | nil => simp at h
    | cons v vs =>
      simp only [List.zipWith_cons_cons, List.map_cons]
      rw [ih vs (by simpa using h), objGet_objSet_ne p.values u uc v hne]

theorem smoothColumn_column_ne (matrix : List ChartDataPoint) (u uc : Str)
    (hne : u ≠ uc) :
    (smoothColumn matrix u).map (fun p => objGet p.values uc)
      = matrix.map (fun p => objGet p.values uc) := by
  rw [smoothColumn]
  apply zipWith_objSet_column_ne u uc (Ne.symm hne)
  rw [calculateSimpleMovingAverage_length, List.length_map]

theorem zipWith_objSet_column (uc : Str) :
    ∀ (matrix : List ChartDataPoint) (ma : List ℚ), ma.length = matrix.length →
      (List.zipWith (fun point v =>
          { point with values := objSet point.values uc v }) matrix ma).map
        (fun p => objGet p.values uc) = ma := by
  intro matrix
  induction matrix with
  | nil =>
    intro ma h
    rw [List.length_nil, List.length_eq_zero] at h
    subst h
    rfl
  | cons p ps ih =>
    intro ma h
    cases ma with
    | nil => simp at h
    | cons v vs =>
      simp only [List.zipWith_cons_cons, List.map_cons]
      rw [ih vs (by simpa using h), objGet_objSet_self]

theorem smoothColumn_column_self (matrix : List ChartDataPoint) (uc : Str) :
    (smoothColumn matrix uc).map (fun p => objGet p.values uc)
      = calculateSimpleMovingAverage (matrix.map (fun p => objGet p.values uc)) := by
  rw [smoothColumn]
  apply zipWith_objSet_column
  rw [calculateSimpleMovingAverage_length, List.length_map]

theorem applySmoothing_column_not_mem (ucs : List Str) (uc : Str) (h : uc ∉ ucs) :
    ∀ matrix : List ChartDataPoint,
      (applySmoothing ucs matrix).map (fun p => objGet p.values uc)
        = matrix.map (fun p => objGet p.values uc) := by
  induction ucs with
  | nil => intro matrix; rfl
  | cons u us ih =>
    intro matrix
    have hu : u ≠ uc := fun e => h (e ▸ List.mem_cons_self u us)
    have hus : uc ∉ us := fun hm => h (List.mem_cons_of_mem u hm)
    rw [applySmoothing, List.foldl_cons]
    rw [show List.foldl smoothColumn (smoothColumn matrix u) us
        = applySmoothing us (smoothColumn matrix u) from rfl]
    rw [ih hus, smoothColumn_column_ne matrix u uc hu]

/-- C6: each selected column's smoothed values are a function of only that
column's own raw values: the smoothing pass sets column `uc` to the moving
average of the raw column `uc`, so two matrices that agree on a column
produce identical smoothed values for it, whatever the other columns hold. -/
theorem claim_C6 (tops : List Str) (matrix matrix2 : List ChartDataPoint) (uc : Str)
    (hnd : tops.Nodup) (hmem : uc ∈ tops) :
    (applySmoothing tops matrix).map (fun p => objGet p.values uc)
        = calculateSimpleMovingAverage (matrix.map (fun p => objGet p.values uc))
    ∧ (matrix.map (fun p => objGet p.values uc)
          = matrix2.map (fun p => objGet p.values uc) →
        (applySmoothing tops matrix).map (fun p => objGet p.values uc)
          = (applySmoothing tops matrix2).map (fun p => objGet p.values uc)) := by
  have main : ∀ (ucs : List Str) (mx : List ChartDataPoint), ucs.Nodup → uc ∈ ucs →
      (applySmoothing ucs mx).map (fun p => objGet p.values uc)
        = calculateSimpleMovingAverage (mx.map (fun p => objGet p.values uc)) := by
    intro ucs
    induction ucs with
    | nil => intro mx _ hmem'; simp at hmem'
    | cons u us ih =>
      intro mx hnd' hmem'
      rw [applySmoothing, List.foldl_cons,
        show List.foldl smoothColumn (smoothColumn mx u) us
          = applySmoothing us (smoothColumn mx u) from rfl]
      by_cases huc : uc = u
      · subst huc
        rw [applySmoothing_column_not_mem us uc (List.nodup_cons.mp hnd').1,
          smoothColumn_column_self]
      · have hin : uc ∈ us := by
          rcases List.mem_cons.mp hmem' with h | h
          · exact absurd h huc
          · exact h
        rw [ih (smoothColumn mx u) (List.nodup_cons.mp hnd').2 hin,
          smoothColumn_column_ne mx u uc (fun e => huc e.symm)]
  refine ⟨main tops matrix hnd hmem, fun hcols => ?_⟩
  rw [main tops matrix hnd hmem, main tops matrix2 hnd hmem, hcols]

theorem claim_C6_witness :
    (["A".data] : List Str).Nodup ∧ "A".data ∈ (["A".data] : List Str)
    ∧ (applySmoothing ["A".data]
          [⟨"2024-07-01".data, [("A".data, (5 : ℚ))]⟩]).map
        (fun p => objGet p.values "A".data)
      = calculateSimpleMovingAverage
          (([⟨"2024-07-01".data, [("A".data, (5 : ℚ))]⟩] : List ChartDataPoint).map
            (fun p => objGet p.values "A".data)) :=
  ⟨by decide, by decide,
    (claim_C6 ["A".data] [⟨"2024-07-01".data, [("A".data, (5 : ℚ))]⟩]
      [⟨"2024-07-01".data, [("A".data, (5 : ℚ))]⟩] "A".data
      (by decide) (by decide)).1⟩

/-! ### Theorems: degenerate inputs and output shape -/

/-- C7 counterexample: the claim fails for negative `topN`. With two
discovered series and `topN = -1 ≤ 0`, `slice(0, topN)` keeps everything
but the last ranked series, so aggregation returns a non-empty ranked set
and a non-empty matrix rather than empty ones. -/
theorem claim_C7_counterexample :
    (-1 : Int) ≤ 0
    ∧ processData [recTieA, recTieB] sampleAxis (-1)
        = some ([⟨"2024-07-01".data, [("A".data, (30 : ℚ))]⟩], ["A".data])
    ∧ (["A".data] : List Str) ≠ []
    ∧ ([⟨"2024-07-01".data, [("A".data, (30 : ℚ))]⟩] : List ChartDataPoint) ≠ [] := by
  decide

theorem processData_nil (axis : List Str) (topN : Int) :
    processData [] axis topN = some (axis.map (fun d => ⟨d, []⟩), []) := by
  have htops : topUCs [] [] axis topN = [] := by
    simp [topUCs, ucTotals, uniqueUCs, uniqueAux, sortDesc, jsSliceTo]
  rw [processData, show dataLookup [] = some [] from rfl, Option.map_some', htops]
  rfl

/-- C7 amended: with an empty record list (any `topN`), or with `topN = 0`
and every date parsing, aggregation degrades gracefully: it returns `some`
output (no error) whose ranked series set is empty and whose matrix has one
valueless row per axis date — so the matrix is empty exactly when the axis
is. A negative `topN`, however, behaves like JavaScript `slice` and keeps
all but the last `|topN|` ranked series (see the counterexample). -/
theorem claim_C7_amended (records : List DataItem) (axis : List Str) (topN : Int) :
    (records = [] →
      processData records axis topN = some (axis.map (fun d => ⟨d, []⟩), []))
    ∧ (topN = 0 → ∀ m, dataLookup records = some m →
      processData records axis topN = some (axis.map (fun d => ⟨d, []⟩), [])) := by
  constructor
  · rintro rfl
    exact processData_nil axis topN
  · rintro rfl m hm
    rw [processData, hm, Option.map_some']
    have htops : topUCs records m axis 0 = [] := by
      rw [topUCs, jsSliceTo, if_neg (by omega)]
      simp
    rw [htops]
    rfl

theorem claim_C7_amended_witness :
    processData [] sampleAxis 10
      = some (sampleAxis.map (fun d => ⟨d, []⟩), []) :=
  (claim_C7_amended [] sampleAxis 10).1 rfl

theorem map_fst_ucTotals (records : List DataItem) (m : List (Str × ℚ))
    (axis : List Str) :
    (ucTotals records m axis).map Prod.fst = uniqueUCs records := by
  rw [ucTotals]
  exact map_fst_pairs _ _

theorem topUCs_nodup (records : List DataItem) (m : List (Str × ℚ))
    (axis : List Str) (topN : Int) : (topUCs records m axis topN).Nodup := by
  rw [topUCs, jsSliceTo, List.map_take]
  apply List.Nodup.sublist (List.take_sublist _ _)
  have hperm : ((sortDesc (ucTotals records m axis)).map Prod.fst).Perm
      ((ucTotals records m axis).map Prod.fst) := (sortDesc_perm _).map Prod.fst
  rw [hperm.nodup_iff, map_fst_ucTotals]
  exact uniqueUCs_nodup records

theorem zipWith_objSet_keys (uc : Str) (tops : List Str) (hmem : uc ∈ tops) :
    ∀ (matrix : List ChartDataPoint) (ma : List ℚ),
      (∀ row ∈ matrix, row.values.map Prod.fst = tops) →
      ∀ row ∈ List.zipWith (fun point v =>
          { point with values := objSet point.values uc v }) matrix ma,
        row.values.map Prod.fst = tops := by
  intro matrix
  induction matrix with
  | nil => intro ma _ row hr; simp at hr
  | cons p ps ih =>
    intro ma hall row hr
    cases ma with
    | nil => simp at hr
    | cons v vs =>
      rw [List.zipWith_cons_cons] at hr
      rcases List.mem_cons.mp hr with rfl | hr
      · have hp := hall p (List.mem_cons_self _ _)
        have hany : (p.values.any (fun q => q.1 = uc)) = true := by
          apply List.any_eq_true.mpr
          have : uc ∈ p.values.map Prod.fst := by rw [hp]; exact hmem
          rcases List.mem_map.mp this with ⟨q, hq, hq2⟩
          exact ⟨q, hq, by simpa using hq2⟩
        show (objSet p.values uc v).map Prod.fst = tops
        rw [objSet_keys_of_mem p.values uc v hany, hp]
      · exact ih vs (fun r hr2 => hall r (List.mem_cons_of_mem p hr2)) row hr

theorem smoothColumn_keys (matrix : List ChartDataPoint) (uc : Str) (tops : List Str)
    (hmem : uc ∈ tops) (hall : ∀ row ∈ matrix, row.values.map Prod.fst = tops) :
    ∀ row ∈ smoothColumn matrix uc, row.values.map Prod.fst = tops := by
  rw [smoothColumn]
  exact zipWith_objSet_keys uc tops hmem matrix _ hall

theorem applySmoothing_keys (tops : List Str) :
    ∀ (ucs : List Str) (matrix : List ChartDataPoint),
      (∀ uc ∈ ucs, uc ∈ tops) →
      (∀ row ∈ matrix, row.values.map Prod.fst = tops) →
      ∀ row ∈ applySmoothing ucs matrix, row.values.map Prod.fst = tops := by
  intro ucs
  induction ucs with
  | nil => intro matrix _ hall; exact hall
  | cons u us ih =>
    intro matrix hsub hall
    rw [applySmoothing, List.foldl_cons,
      show List.foldl smoothColumn (smoothColumn matrix u) us
        = applySmoothing us (smoothColumn matrix u) from rfl]
    exact ih (smoothColumn matrix u) (fun uc h => hsub uc (List.mem_cons_of_mem u h))
      (smoothColumn_keys matrix u tops (hsub u (List.mem_cons_self _ _)) hall)

/-- C10: whenever the processing succeeds with a non-negative `topN`, the
returned ranked list has length `min topN (number of distinct series
names)`, and every returned matrix row binds exactly that ranked list of
keys (plus its separate date field), in order. -/
theorem claim_C10 (records : List DataItem) (axis : List Str) (topN : Int)
    (matrix : List ChartDataPoint) (ucs : List Str) (htop : 0 ≤ topN)
    (hout : processData records axis topN = some (matrix, ucs)) :
    ucs.length = min topN.toNat ((records.map (·.name)).dedup).length
    ∧ ∀ row ∈ matrix, row.values.map Prod.fst = ucs := by
  rw [processData] at hout
  cases hdl : dataLookup records with
  | none => rw [hdl] at hout; simp at hout
  | some m =>
    rw [hdl, Option.map_some', Option.some_inj] at hout
    have hucs : ucs = topUCs records m axis topN := (congrArg Prod.snd hout).symm
    have hmx : matrix = applySmoothing (topUCs records m axis topN)
        (formattedData m axis (topUCs records m axis topN)) :=
      (congrArg Prod.fst hout).symm
    constructor
    · rw [hucs, topUCs, jsSliceTo, if_neg (by omega), List.length_map, List.length_take]
      have h1 : (sortDesc (ucTotals records m axis)).length = (uniqueUCs records).length := by
        rw [(sortDesc_perm _).length_eq, ← map_fst_ucTotals records m axis, List.length_map]
      rw [h1, uniqueUCs_length records]
    · intro row hrow
      rw [hucs]
      refine applySmoothing_keys (topUCs records m axis topN) (topUCs records m axis topN)
        (formattedData m axis _) (fun uc h => h) ?_ row (by rw [hmx] at hrow; exact hrow)
      intro r hr
      rw [formattedData, List.mem_map] at hr
      obtain ⟨date, _, rfl⟩ := hr
      show (List.foldl (fun vs uc => objSet vs uc (getOrZero m (uc ++ '-' :: date)))
        [] (topUCs records m axis topN)).map Prod.fst = topUCs records m axis topN
      rw [formattedData_row_values m _ date (topUCs_nodup records m axis topN)]
      exact map_fst_pairs _ _

theorem claim_C10_witness :
    (0 : Int) ≤ 5
    ∧ (["A".data] : List Str).length
        = min (5 : Int).toNat (([recTieA].map (·.name)).dedup).length :=
  ⟨by decide, (claim_C10 [recTieA] sampleAxis 5
      [⟨"2024-07-01".data, [("A".data, (30 : ℚ))]⟩] ["A".data]
      (by decide) (by decide)).1⟩

/-! ### Theorems: the calendar and the date axis -/

theorem monthLengths_length (y : Nat) : (monthLengths y).length = 12 := by
  rw [monthLengths]
  rfl

theorem monthLengths_sum (y : Nat) : (monthLengths y).sum = yearLen y := by
  rw [monthLengths, yearLen]
  split <;> norm_num

theorem monthLengths_pos (y : Nat) : ∀ x ∈ monthLengths y, 0 < x := by
  intro x hx
  rw [monthLengths] at hx
  simp only [List.mem_cons, List.not_mem_nil, or_false] at hx
  rcases hx with rfl | rfl | rfl | rfl | rfl | rfl | rfl | rfl | rfl | rfl | rfl | rfl
  all_goals first
    | omega
    | (split <;> omega)

theorem daysInMonth_eq_getElem (y m : Nat) (h : m - 1 < 12) :
    daysInMonth y m = (monthLengths y).get ⟨m - 1, by rw [monthLengths_length]; exact h⟩ := by
  rw [daysInMonth, List.getD_eq_getElem?_getD,
    List.getElem?_eq_getElem (by rw [monthLengths_length]; exact h)]
  rfl

theorem daysInMonth_pos (y m : Nat) (h1 : 1 ≤ m) (h2 : m ≤ 12) :
    0 < daysInMonth y m := by
  rw [daysInMonth_eq_getElem y m (by omega)]
  exact monthLengths_pos y _ (List.getElem_mem _)

theorem daysBeforeMonth_succ (y m : Nat) (h1 : 1 ≤ m) (h2 : m ≤ 12) :
    daysBeforeMonth y (m + 1) = daysBeforeMonth y m + daysInMonth y m := by
  have hm : m - 1 < (monthLengths y).length := by rw [monthLengths_length]; omega
  rw [daysBeforeMonth, daysBeforeMonth, show m + 1 - 1 = (m - 1) + 1 by omega,
    List.sum_take_succ _ _ hm, daysInMonth_eq_getElem y m (by omega)]
  simp [List.get_eq_getElem]

theorem daysBeforeMonth_add_le (y m d : Nat) (h1 : 1 ≤ m) (h2 : m ≤ 12)
    (h3 : d ≤ daysInMonth y m) :
    daysBeforeMonth y m + d ≤ yearLen y := by
  have step : daysBeforeMonth y m + d ≤ daysBeforeMonth y (m + 1) := by
    rw [daysBeforeMonth_succ y m h1 h2]
    omega
  have take_le : ∀ k, ((monthLengths y).take k).sum ≤ (monthLengths y).sum := by
    intro k
    conv_rhs => rw [← List.take_append_drop k (monthLengths y)]
    rw [List.sum_append]
    omega
  calc daysBeforeMonth y m + d ≤ daysBeforeMonth y (m + 1) := step
    _ ≤ (monthLengths y).sum := take_le (m + 1 - 1)
    _ = yearLen y := monthLengths_sum y

theorem daysInYears_succ (n : Nat) : ∀ a, daysInYears a (n + 1) = daysInYears a n + yearLen (a + n) := by
  induction n with
  | zero =>
    intro a
    simp [daysInYears]
  | succ k ih =>
    intro a
    rw [daysInYears, ih (a + 1), daysInYears,
      show a + 1 + k = a + (k + 1) by omega]
    omega

theorem daysInYears_le (n : Nat) : ∀ a, n ≤ daysInYears a n := by
  induction n with
  | zero => intro a; exact Nat.zero_le _
  | succ k ih =>
    intro a
    rw [daysInYears]
    have := yearLen_pos a
    have := ih (a + 1)
    omega

theorem toSerial_pos (d : Date) (hd : d.Valid) : 1 ≤ toSerial d := by
  obtain ⟨_, _, h3, _⟩ := hd
  rw [toSerial]
  omega

theorem toSerial_nextDay (d : Date) (hd : d.Valid) :
    toSerial (nextDay d) = toSerial d + 1 := by
  obtain ⟨h1, h2, h3, h4⟩ := hd
  by_cases hday : d.day < daysInMonth d.year d.month
  · rw [nextDay, if_pos hday]
    show daysInYears 0 d.year + daysBeforeMonth d.year d.month + (d.day + 1)
      = toSerial d + 1
    rw [toSerial]
    omega
  · by_cases hmon : d.month < 12
    · rw [nextDay, if_neg hday, if_pos hmon]
      show daysInYears 0 d.year + daysBeforeMonth d.year (d.month + 1) + 1
        = toSerial d + 1
      rw [toSerial, daysBeforeMonth_succ d.year d.month h1 (by omega)]
      omega
    · have hm12 : d.month = 12 := by omega
      rw [nextDay, if_neg hday, if_neg hmon]
      show daysInYears 0 (d.year + 1) + daysBeforeMonth (d.year + 1) 1 + 1
        = toSerial d + 1
      rw [toSerial, daysInYears_succ d.year 0, Nat.zero_add]
      have h11 : (11 : Nat) < (monthLengths d.year).length := by
        rw [monthLengths_length]; omega
      have hsum : daysBeforeMonth d.year 12 + daysInMonth d.year 12 = yearLen d.year := by
        have hdim : daysInMonth d.year 12 = (monthLengths d.year).get ⟨11, h11⟩ := by
          rw [show daysInMonth d.year 12 = (monthLengths d.year).getD 11 31 from rfl,
            List.getD_eq_getElem?_getD, List.getElem?_eq_getElem h11]
          rfl
        have h12full : ((monthLengths d.year).take 12).sum = (monthLengths d.year).sum := by
          rw [show (12 : Nat) = (monthLengths d.year).length
              from (monthLengths_length d.year).symm, List.take_length]
        have hstep := List.sum_take_succ (monthLengths d.year) 11 h11
        rw [show daysBeforeMonth d.year 12 = ((monthLengths d.year).take 11).sum from rfl,
          hdim, ← monthLengths_sum d.year, ← h12full, hstep]
        rfl
      have hbm1 : daysBeforeMonth (d.year + 1) 1 = 0 := rfl
      rw [hbm1]
      rw [hm12] at h4 hday ⊢
      omega

theorem nextDay_valid (d : Date) (hd : d.Valid) : (nextDay d).Valid := by
  obtain ⟨h1, h2, h3, h4⟩ := hd
  by_cases hday : d.day < daysInMonth d.year d.month
  · rw [nextDay, if_pos hday]
    exact ⟨h1, h2, show 1 ≤ d.day + 1 by omega,
      show d.day + 1 ≤ daysInMonth d.year d.month by omega⟩
  · by_cases hmon : d.month < 12
    · rw [nextDay, if_neg hday, if_pos hmon]
      exact ⟨show 1 ≤ d.month + 1 by omega, show d.month + 1 ≤ 12 by omega, le_refl 1,
        daysInMonth_pos d.year (d.month + 1) (by omega) (by omega)⟩
    · rw [nextDay, if_neg hday, if_neg hmon]
      exact ⟨le_refl 1, show (1 : Nat) ≤ 12 by omega, le_refl 1,
        daysInMonth_pos (d.year + 1) 1 (by omega) (by omega)⟩

theorem findYearAux_spec (n : Nat) :
    ∀ (a r fuel : Nat), 1 ≤ r → r ≤ yearLen (a + n) → n ≤ fuel →
      findYearAux fuel a (daysInYears a n + r) = (a + n, r) := by
  induction n with
  | zero =>
    intro a r fuel h1 h2 _
    rw [show daysInYears a 0 + r = r from by rw [daysInYears]; omega]
    cases fuel with
    | zero =>
      rw [findYearAux]
      simp
    | succ f =>
      rw [findYearAux, if_neg (by rw [Nat.add_zero] at h2; omega)]
      simp
  | succ k ih =>
    intro a r fuel h1 h2 hfuel
    cases fuel with
    | zero => omega
    | succ f =>
      have hpos : 0 < daysInYears (a + 1) k + r := by omega
      rw [show daysInYears a (k + 1) + r = yearLen a + (daysInYears (a + 1) k + r)
          from by rw [daysInYears]; omega]
      rw [findYearAux, if_pos (by omega),
        show yearLen a + (daysInYears (a + 1) k + r) - yearLen a
          = daysInYears (a + 1) k + r from by omega]
      rw [ih (a + 1) r f h1 (by rw [show a + 1 + k = a + (k + 1) from by omega]; exact h2)
        (by omega)]
      rw [show a + 1 + k = a + (k + 1) from by omega]

theorem findYear_spec (n r : Nat) (h1 : 1 ≤ r) (h2 : r ≤ yearLen n) :
    findYear 0 (daysInYears 0 n + r) = (n, r) := by
  rw [findYear]
  have hle := daysInYears_le n 0
  have haux := findYearAux_spec n 0 r (daysInYears 0 n + r) h1 (by simpa using h2)
    (by omega)
  simpa using haux

theorem findMonth_spec (pre : List Nat) :
    ∀ (rest : List Nat) (m r : Nat), 1 ≤ r →
      findMonth (pre ++ rest) m (pre.sum + r) = findMonth rest (m + pre.length) r := by
  induction pre with
  | nil => intro rest m r _; simp
  | cons l pre' ih =>
    intro rest m r hr
    rw [List.cons_append, findMonth,
      show (l :: pre').sum + r = l + (pre'.sum + r) from by
        rw [List.sum_cons]; omega]
    rw [if_pos (by omega), show l + (pre'.sum + r) - l = pre'.sum + r from by omega,
      ih rest (m + 1) r hr]
    rw [show m + 1 + pre'.length = m + (l :: pre').length from by
      rw [List.length_cons]; omega]

theorem serialToDate_toSerial (d : Date) (hd : d.Valid) :
    serialToDate (toSerial d) = d := by
  obtain ⟨y, mo, dd⟩ := d
  obtain ⟨h1, h2, h3, h4⟩ := hd
  simp only at h1 h2 h3 h4
  have hr1 : 1 ≤ daysBeforeMonth y mo + dd := by omega
  have hr2 : daysBeforeMonth y mo + dd ≤ yearLen y :=
    daysBeforeMonth_add_le y mo dd h1 h2 h4
  have hfy : findYear 0 (toSerial ⟨y, mo, dd⟩) = (y, daysBeforeMonth y mo + dd) := by
    rw [show toSerial ⟨y, mo, dd⟩ = daysInYears 0 y + (daysBeforeMonth y mo + dd)
        from by
          show daysInYears 0 y + daysBeforeMonth y mo + dd
            = daysInYears 0 y + (daysBeforeMonth y mo + dd)
          omega]
    exact findYear_spec y (daysBeforeMonth y mo + dd) hr1 hr2
  have hmlen : mo - 1 < (monthLengths y).length := by rw [monthLengths_length]; omega
  have hfm : findMonth (monthLengths y) 1 (daysBeforeMonth y mo + dd) = (mo, dd) := by
    have hsplitml : monthLengths y
        = (monthLengths y).take (mo - 1) ++ (monthLengths y).drop (mo - 1) :=
      (List.take_append_drop _ _).symm
    rw [hsplitml, show daysBeforeMonth y mo + dd
        = ((monthLengths y).take (mo - 1)).sum + dd from rfl]
    rw [findMonth_spec ((monthLengths y).take (mo - 1)) _ 1 dd h3]
    rw [List.drop_eq_getElem_cons hmlen, findMonth,
      if_neg (by
        rw [← List.get_eq_getElem (monthLengths y) ⟨mo - 1, hmlen⟩,
          ← daysInMonth_eq_getElem y mo (by omega)]
        omega)]
    rw [List.length_take, monthLengths_length]
    have : 1 + min (mo - 1) 12 = mo := by omega
    rw [this]
  rw [serialToDate, hfy]
  simp only
  rw [hfm]

theorem exists_valid_toSerial (s : Nat) (hs : 1 ≤ s) :
    ∃ d : Date, d.Valid ∧ toSerial d = s := by
  induction s with
  | zero => omega
  | succ k ih =>
    by_cases hk : 1 ≤ k
    · obtain ⟨d, hv, hser⟩ := ih hk
      exact ⟨nextDay d, nextDay_valid d hv, by rw [toSerial_nextDay d hv, hser]⟩
    · have : k = 0 := by omega
      subst this
      exact ⟨⟨0, 1, 1⟩, by decide, by decide⟩

theorem serialToDate_spec (s : Nat) (hs : 1 ≤ s) :
    (serialToDate s).Valid ∧ toSerial (serialToDate s) = s := by
  obtain ⟨d, hv, hser⟩ := exists_valid_toSerial s hs
  rw [← hser, serialToDate_toSerial d hv]
  exact ⟨hv, rfl⟩

theorem serialToDate_succ (s : Nat) (hs : 1 ≤ s) :
    serialToDate (s + 1) = nextDay (serialToDate s) := by
  obtain ⟨d, hv, hser⟩ := exists_valid_toSerial s hs
  rw [← hser, serialToDate_toSerial d hv, ← toSerial_nextDay d hv,
    serialToDate_toSerial (nextDay d) (nextDay_valid d hv)]

theorem dateRangeAux_eq_range' :
    ∀ (fuel cur endS : Nat), endS + 1 - cur ≤ fuel →
      dateRangeAux fuel cur endS = List.range' cur (endS + 1 - cur) := by
  intro fuel
  induction fuel with
  | zero =>
    intro cur endS h
    rw [show endS + 1 - cur = 0 from by omega]
    rfl
  | succ f ih =>
    intro cur endS h
    by_cases hc : cur ≤ endS
    · rw [dateRangeAux, if_pos hc, ih (cur + 1) endS (by omega),
        show endS + 1 - cur = (endS + 1 - (cur + 1)) + 1 from by omega]
      rfl
    · rw [dateRangeAux, if_neg hc, show endS + 1 - cur = 0 from by omega]
      rfl

theorem dateRangeGo_eq_range' (cur endS : Nat) :
    dateRangeGo cur endS = List.range' cur (endS + 1 - cur) :=
  dateRangeAux_eq_range' (endS + 1 - cur) cur endS (le_refl _)

theorem axisLast (n : Nat) :
    ∀ s, ((List.range' s (n + 1)).map serialToDate).getLast?
      = some (serialToDate (s + n)) := by
  induction n with
  | zero => intro s; simp
  | succ k ih =>
    intro s
    rw [show List.range' s (k + 2) = s :: (s + 1) :: List.range' (s + 2) k from rfl,
      List.map_cons, List.map_cons, List.getLast?_cons_cons,
      ← List.map_cons serialToDate (s + 1) (List.range' (s + 2) k),
      ← show List.range' (s + 1) (k + 1) = (s + 1) :: List.range' (s + 2) k from rfl,
      ih (s + 1), show s + 1 + k = s + (k + 1) from by omega]

theorem axisChain (n : Nat) :
    ∀ s, 1 ≤ s →
      ((List.range' s (n + 1)).map serialToDate).Chain' (fun a b => b = nextDay a) := by
  induction n with
  | zero => intro s _; exact List.chain'_singleton _
  | succ k ih =>
    intro s hs
    rw [show List.range' s (k + 2) = s :: (s + 1) :: List.range' (s + 2) k from rfl,
      List.map_cons, List.map_cons]
    apply List.Chain'.cons
    · exact serialToDate_succ s hs
    · rw [← List.map_cons serialToDate (s + 1) (List.range' (s + 2) k),
        ← show List.range' (s + 1) (k + 1) = (s + 1) :: List.range' (s + 2) k from rfl]
      exact ih (s + 1) (by omega)

theorem axisPairwise (s n : Nat) (hs : 1 ≤ s) :
    ((List.range' s n).map serialToDate).Pairwise
      (fun a b => toSerial a < toSerial b) := by
  rw [List.pairwise_map]
  refine List.Pairwise.imp_of_mem ?_ (List.pairwise_lt_range' s n)
  intro a b ha hb hab
  obtain ⟨i, _, rfl⟩ := List.mem_range'.mp ha
  obtain ⟨j, _, rfl⟩ := List.mem_range'.mp hb
  rw [(serialToDate_spec (s + 1 * i) (by omega)).2,
    (serialToDate_spec (s + 1 * j) (by omega)).2]
  exact hab

theorem axisValid (s n : Nat) (hs : 1 ≤ s) :
    ∀ d ∈ (List.range' s n).map serialToDate, d.Valid := by
  intro d hd
  obtain ⟨x, hx, rfl⟩ := List.mem_map.mp hd
  obtain ⟨i, _, rfl⟩ := List.mem_range'.mp hx
  exact (serialToDate_spec (s + 1 * i) (by omega)).1

/-- C2: for valid (canonical) dates with `start <= end`, the generated date
axis has the inclusive day count as its length, starts at `start`, ends at
`end`, advances by exactly one calendar day per step (month and year
rollover and leap years fall out of `nextDay`), is strictly increasing, and
contains only valid dates; a one-day range is `[d]`; and `start > end`
yields the empty sequence rather than an error. -/
theorem claim_C2 (startDate endDate : Date) (hs : startDate.Valid) (he : endDate.Valid) :
    (toSerial startDate ≤ toSerial endDate →
      (generateDateRange startDate endDate).length
          = toSerial endDate - toSerial startDate + 1
      ∧ (generateDateRange startDate endDate).head? = some startDate
      ∧ (generateDateRange startDate endDate).getLast? = some endDate
      ∧ (generateDateRange startDate endDate).Chain' (fun a b => b = nextDay a)
      ∧ (generateDateRange startDate endDate).Pairwise
          (fun a b => toSerial a < toSerial b)
      ∧ ∀ d ∈ generateDateRange startDate endDate, d.Valid)
    ∧ generateDateRange startDate startDate = [startDate]
    ∧ (toSerial endDate < toSerial startDate →
        generateDateRange startDate endDate = []) := by
  have hs1 : 1 ≤ toSerial startDate := toSerial_pos startDate hs
  refine ⟨?_, ?_, ?_⟩
  · intro hle
    have hn : toSerial endDate + 1 - toSerial startDate
        = (toSerial endDate - toSerial startDate) + 1 := by omega
    have hax : generateDateRange startDate endDate
        = (List.range' (toSerial startDate)
            ((toSerial endDate - toSerial startDate) + 1)).map serialToDate := by
      rw [generateDateRange, dateRangeGo_eq_range', hn]
    refine ⟨?_, ?_, ?_, ?_, ?_, ?_⟩
    · rw [hax, List.length_map, List.length_range']
    · rw [hax,
        show ((List.range' (toSerial startDate)
            ((toSerial endDate - toSerial startDate) + 1)).map serialToDate).head?
          = some (serialToDate (toSerial startDate)) from rfl,
        serialToDate_toSerial startDate hs]
    · rw [hax, axisLast,
        show toSerial startDate + (toSerial endDate - toSerial startDate)
          = toSerial endDate from by omega,
        serialToDate_toSerial endDate he]
    · rw [hax]
      exact axisChain _ _ hs1
    · rw [hax]
      exact axisPairwise _ _ hs1
    · rw [hax]
      exact axisValid _ _ hs1
  · rw [generateDateRange, dateRangeGo_eq_range',
      show toSerial startDate + 1 - toSerial startDate = 1 from by omega,
      show List.range' (toSerial startDate) 1 = [toSerial startDate] from rfl,
      List.map_cons, List.map_nil, serialToDate_toSerial startDate hs]
  · intro hlt
    rw [generateDateRange, dateRangeGo_eq_range',
      show toSerial endDate + 1 - toSerial startDate = 0 from by omega]
    rfl

theorem claim_C2_witness :
    (Date.mk 4 2 27).Valid ∧ (Date.mk 4 3 2).Valid
    ∧ toSerial ⟨4, 2, 27⟩ ≤ toSerial ⟨4, 3, 2⟩
    ∧ (generateDateRange ⟨4, 2, 27⟩ ⟨4, 3, 2⟩).length
        = toSerial ⟨4, 3, 2⟩ - toSerial ⟨4, 2, 27⟩ + 1
    ∧ generateDateRange ⟨4, 2, 27⟩ ⟨4, 3, 2⟩
        = [⟨4, 2, 27⟩, ⟨4, 2, 28⟩, ⟨4, 2, 29⟩, ⟨4, 3, 1⟩, ⟨4, 3, 2⟩] :=
  ⟨by decide, by decide, by decide,
    ((claim_C2 ⟨4, 2, 27⟩ ⟨4, 3, 2⟩ (by decide) (by decide)).1 (by decide)).1,
    by decide⟩

end LineGraph
